import Mathlib

/-!
Verification of `1.hapsim_and_realize_dichotomous.py` (Miao2023sim).

The Python pipeline simulates genotypes per gene, realizes dichotomous
phenotypes under a liability-threshold model, accumulates case/control
samples, partitions them into replicates and LD panels, and computes
per-SNP association statistics.  The definitions below are a shallow
embedding of the relevant parts of that script: pure numpy expressions
become Lean functions over lists of naturals / rationals / reals, the
random draws (multivariate-normal vectors, noise) become explicit
arguments, and the while-loop over sampling batches becomes a fold over
an explicit list of batches.
-/

namespace Miao2023sim

/- ------------------------------------------------------------------
   Chi-squared contingency-table construction (script lines 252-258).

   The script computes, per replicate and SNP,
     a = X_case.sum(axis=1)        (dosage sum over the n_case cases)
     b = n_gwa * 2 - a
     c = X_ctrl.sum(axis=1)
     d = n_gwa * 2 - c
   A dosage column of one group is modelled as the list of dosages of the
   group's individuals at one SNP.
   ------------------------------------------------------------------ -/

/-- Cell `a` (resp. `c`) of the 2x2 table: the raw dosage sum of the
group's column, i.e. the group's A1 allele count (line 255/257). -/
def cellA (col : List ℕ) : ℕ := col.sum

/-- Cell `b` (resp. `d`) of the 2x2 table as the script computes it:
`n_gwa * 2 - a` (line 256/258). -/
def cellB (n_gwa a : ℕ) : ℕ := n_gwa * 2 - a

/-- Modelled from the spec: the actual A2 allele count of a group, which
is the group's total allele count (2 alleles per individual) minus its
A1 allele count. -/
def groupA2count (col : List ℕ) : ℕ := 2 * col.length - col.sum

/-- C1: the script's cell `b` is NOT the case A2 allele count.  With
`n_gwa = 4` (so `n_case = 2`) and case dosage column `[1, 0]` the script
computes `b = 2 * n_gwa - a = 7`, while the case group holds only
`2 * n_case = 4` alleles, so its A2 count is `3`; the table row sums to
`8`, not to `n_gwa = 4`. -/
theorem chi2_table_cellB_bug :
    cellA [1, 0] = 1 ∧
    cellB 4 (cellA [1, 0]) = 7 ∧
    groupA2count [1, 0] = 3 ∧
    cellB 4 (cellA [1, 0]) ≠ groupA2count [1, 0] ∧
    cellA [1, 0] + cellB 4 (cellA [1, 0]) ≠ 4 := by
  decide

/- ------------------------------------------------------------------
   MAF filtering (script lines 292-299).

   allele_frq = ref_haplo.mean(axis=0)
   extract    = (allele_frq > maf_min) & (allele_frq < 1 - maf_min)
   ref_haplo  = ref_haplo[:, extract]
   plink_bim  = vcf.loc[extract, ...]

   A SNP is modelled by its haplotype column (one 0/1 digit per
   haplotype row); the boolean mask is applied to both the column list
   and the per-SNP metadata list.
   ------------------------------------------------------------------ -/

/-- Allele frequency of one SNP: mean of its haplotype column. -/
def alleleFrq (col : List ℕ) : ℚ := (col.sum : ℚ) / (col.length : ℚ)

/-- The filter predicate of line 294: `maf_min < frq < 1 - maf_min`. -/
def bandPred (mafMin : ℚ) (col : List ℕ) : Bool :=
  decide (mafMin < alleleFrq col) && decide (alleleFrq col < 1 - mafMin)

/-- The boolean mask `extract` of line 294, one entry per SNP column. -/
def extractMask (mafMin : ℚ) (cols : List (List ℕ)) : List Bool :=
  cols.map (bandPred mafMin)

/-- Numpy boolean-mask indexing `arr[mask]`: keep the entries whose mask
bit is `true`, in order. -/
def applyMask {α : Type} : List Bool → List α → List α
  | true :: ms, x :: xs => x :: applyMask ms xs
  | false :: ms, _ :: xs => applyMask ms xs
  | _, _ => []

theorem applyMask_map_pred {α : Type} (p : α → Bool) :
    ∀ (l : List α) (x : α), x ∈ applyMask (l.map p) l → p x = true := by
  intro l
  induction l with
  | nil => intro x hx; simp [applyMask] at hx
  | cons a t ih =>
      intro x hx
      by_cases hp : p a
      · simp [applyMask, hp] at hx
        rcases hx with h | h
        · rw [h]; exact hp
        · exact ih x h
      · simp [applyMask, hp] at hx
        exact ih x hx

theorem applyMask_paired {α : Type} (p : List ℕ → Bool) :
    ∀ (bim : List α) (cols : List (List ℕ)), bim.length = cols.length →
      applyMask (cols.map p) bim =
        ((bim.zip cols).filter (fun q => p q.2)).map Prod.fst := by
  intro bim
  induction bim with
  | nil => intro cols _; cases cols <;> simp [applyMask]
  | cons a t ih =>
      intro cols hlen
      cases cols with
      | nil => simp at hlen
      | cons c cs =>
          simp at hlen
          by_cases hp : p c
          · simp [applyMask, hp, List.filter, ih cs hlen, List.zip]
          · simp [applyMask, hp, List.filter, ih cs hlen, List.zip]

/-- C6: every SNP column retained by the MAF filter has allele frequency
strictly inside `(maf_min, 1 - maf_min)`, and the metadata table is cut
by the same mask, so exactly the SNPs whose column passes the band
survive in it (all others are dropped from both). -/
theorem maf_filter_band {α : Type} (mafMin : ℚ) (cols : List (List ℕ)) (bim : List α) :
    (∀ col ∈ applyMask (extractMask mafMin cols) cols,
        mafMin < alleleFrq col ∧ alleleFrq col < 1 - mafMin) ∧
    (bim.length = cols.length →
      applyMask (extractMask mafMin cols) bim =
        ((bim.zip cols).filter (fun q => bandPred mafMin q.2)).map Prod.fst) := by
  constructor
  · intro col hcol
    have h := applyMask_map_pred (bandPred mafMin) cols col hcol
    unfold bandPred at h
    simp only [Bool.and_eq_true, decide_eq_true_eq] at h
    exact h
  · intro hlen
    exact applyMask_paired (bandPred mafMin) bim cols hlen

/-- Witness for C6 at a concrete panel: columns `[0,1]` (frequency 1/2,
kept) and `[1,1]` (frequency 1, dropped) with metadata `[10, 20]`. -/
theorem maf_filter_band_witness :
    ((1 : ℚ)/10 < alleleFrq [0, 1] ∧ alleleFrq [0, 1] < 1 - 1/10) ∧
    applyMask (extractMask (1/10) [[0, 1], [1, 1]]) [10, 20] =
      (([10, 20].zip [[0, 1], [1, 1]]).filter
        (fun q => bandPred (1/10) q.2)).map Prod.fst := by
  refine ⟨(maf_filter_band (1/10) [[0, 1], [1, 1]] ([] : List ℕ)).1 [0, 1] ?_, ?_⟩
  · norm_num [applyMask, extractMask, bandPred, alleleFrq]
  · exact (maf_filter_band (1/10) [[0, 1], [1, 1]] [10, 20]).2 rfl

/- ------------------------------------------------------------------
   Dosage sampler `sample_once` (script lines 118-121).

   X_ = np.random.multivariate_normal(zeros, C, (2, subsample_size))
   X_ = np.int8(X_ < percent_point)
   return X_[0] + X_[1]

   The two multivariate-normal draws are explicit real matrices `X1`,
   `X2` (one row per sample, one column per SNP); `pp` is the vector of
   probit quantiles `norm.ppf(allele_frq)`.
   ------------------------------------------------------------------ -/

/-- One 0/1 haplotype call: the indicator that the normal draw falls
below the SNP's probit quantile (`np.int8(x < percent_point)`).  The
scalar type is any linear order so the definition stays executable; the
script's draws live in `ℝ`. -/
def haploCall {K : Type} [LinearOrder K] (x p : K) : ℕ := if x < p then 1 else 0

/-- One dosage entry: the sum of the two haplotype calls of a sample at
one SNP (`X_[0] + X_[1]`). -/
def dosageEntry {K : Type} [LinearOrder K] (x1 x2 p : K) : ℕ :=
  haploCall x1 p + haploCall x2 p

/-- The batch returned by `sample_once`: elementwise
`indicator + indicator` over the two draw matrices, thresholding column
`j` of each row against `pp[j]`. -/
def sampleOnce {K : Type} [LinearOrder K] (X1 X2 : List (List K)) (pp : List K) :
    List (List ℕ) :=
  List.zipWith
    (fun r1 r2 => List.zipWith (fun q p => dosageEntry q.1 q.2 p) (r1.zip r2) pp)
    X1 X2

theorem of_mem_zipWith {α β γ : Type} {f : α → β → γ} :
    ∀ {l1 : List α} {l2 : List β} {c : γ}, c ∈ List.zipWith f l1 l2 →
      ∃ a b, a ∈ l1 ∧ b ∈ l2 ∧ c = f a b := by
  intro l1
  induction l1 with
  | nil => intro l2 c hc; simp at hc
  | cons a t ih =>
      intro l2 c hc
      cases l2 with
      | nil => simp at hc
      | cons b s =>
          simp only [List.zipWith_cons_cons, List.mem_cons] at hc
          rcases hc with h | h
          · exact ⟨a, b, List.mem_cons_self a t, List.mem_cons_self b s, h⟩
          · rcases ih h with ⟨a', b', ha', hb', hc'⟩
            exact ⟨a', b', List.mem_cons_of_mem a ha', List.mem_cons_of_mem b hb', hc'⟩

/-- C7: every entry of every batch produced by `sample_once` is 0, 1 or
2: it is the sum of two 0/1 indicator haplotype calls. -/
theorem sample_once_entries_012 {K : Type} [LinearOrder K]
    (X1 X2 : List (List K)) (pp : List K) :
    ∀ row ∈ sampleOnce X1 X2 pp, ∀ e ∈ row, e = 0 ∨ e = 1 ∨ e = 2 := by
  intro row hrow e he
  rcases of_mem_zipWith hrow with ⟨r1, r2, _, _, hrow'⟩
  rw [hrow'] at he
  rcases of_mem_zipWith he with ⟨q, p, _, _, he'⟩
  rw [he']
  unfold dosageEntry haploCall
  split <;> split <;> simp

/-- Witness for C7: with draws `0, 0` against quantile `1` the entry is
in `{0, 1, 2}`. -/
theorem sample_once_entries_012_witness :
    dosageEntry (0 : ℚ) 0 1 = 0 ∨ dosageEntry (0 : ℚ) 0 1 = 1 ∨ dosageEntry (0 : ℚ) 0 1 = 2 :=
  sample_once_entries_012 [[(0 : ℚ)]] [[0]] [1] [dosageEntry (0 : ℚ) 0 1]
    (by simp [sampleOnce, List.zip]) (dosageEntry (0 : ℚ) 0 1) (List.mem_singleton.mpr rfl)

/- ------------------------------------------------------------------
   GWAS sample size vs. the reported N column.

   Line 49-50:   n_gwa = int(args.n_gwa); n_case = int(n_gwa / 2)
   Line 217:     X_gwa = concatenate((X_case, X_ctrl), axis=1)
                 (one replicate holds n_case cases + n_case controls)
   Line 228:     sumstat['N'] = n_gwa
   ------------------------------------------------------------------ -/

/-- `n_case = int(n_gwa / 2)`: Python `int` truncates, which on
nonnegative input is floor division. -/
def nCase (n_gwa : ℕ) : ℕ := n_gwa / 2

/-- The number of individuals in one replicate's association sample:
`n_case` cases concatenated with `n_case` controls (line 217). -/
def gwaReplicateSize (n_gwa : ℕ) : ℕ := nCase n_gwa + nCase n_gwa

/-- One row of a summary-statistic file. -/
structure SumstatRow where
  snp : ℕ
  z : ℚ
  n : ℕ

/-- The rows written by `write_sumstats`: one per SNP, with the `N`
column set to the requested `n_gwa` (line 228). -/
def makeSumstatRows (snps : List ℕ) (zs : List ℚ) (n_gwa : ℕ) : List SumstatRow :=
  List.zipWith (fun s z => ⟨s, z, n_gwa⟩) snps zs

/-- C9: for odd `n_gwa` each replicate's association sample has
`2 * floor(n_gwa / 2) = n_gwa - 1` individuals, while every row written
by `write_sumstats` reports `N = n_gwa`. -/
theorem odd_ngwa_underfilled_sample (n_gwa : ℕ) (h : Odd n_gwa)
    (snps : List ℕ) (zs : List ℚ) :
    gwaReplicateSize n_gwa = n_gwa - 1 ∧
    ∀ r ∈ makeSumstatRows snps zs n_gwa, r.n = n_gwa := by
  constructor
  · rcases h with ⟨k, hk⟩
    subst hk
    unfold gwaReplicateSize nCase
    omega
  · intro r hr
    rcases of_mem_zipWith hr with ⟨s, z, _, _, hr'⟩
    rw [hr']

/-- Witness for C9 at `n_gwa = 7`. -/
theorem odd_ngwa_underfilled_sample_witness :
    gwaReplicateSize 7 = 7 - 1 ∧ (makeSumstatRows [1] [0] 7).head?.map SumstatRow.n = some 7 := by
  refine ⟨(odd_ngwa_underfilled_sample 7 ⟨3, by norm_num⟩ [1] [0]).1, ?_⟩
  have h := (odd_ngwa_underfilled_sample 7 ⟨3, by norm_num⟩ [1] [0]).2
    ⟨1, 0, 7⟩ (List.mem_singleton.mpr rfl)
  simp [makeSumstatRows, h]

/- ------------------------------------------------------------------
   Empty gene regions (script lines 73-84 and 304-305).

   snp_idx = np.where((bim.CHR == region.CHR) & (bim.BP >= START) &
                      (bim.BP <= END))
   if m == 0: log skip; return 0
   snp_counts = Pool.map(hapsim_one_gene, gene_list)  ->  table
   ------------------------------------------------------------------ -/

/-- One row of the (already MAF-filtered) BIM table. -/
structure BimRow where
  chr : ℕ
  bp : ℕ

/-- One row of the gene region table (START/END bounds). -/
structure Region where
  chr : ℕ
  start : ℕ
  stop : ℕ

/-- The SNPs of the panel falling inside the gene's region
(lines 73-75). -/
def geneSnps (bim : List BimRow) (r : Region) : List BimRow :=
  bim.filter fun s => decide (s.chr = r.chr) && decide (r.start ≤ s.bp) && decide (s.bp ≤ r.stop)

/-- Observable outcome of processing one gene: the returned SNP count,
whether the skip was logged, and whether any downstream simulation work
(file writing, sampling, testing) happened. -/
structure GeneRun where
  count : ℕ
  loggedSkip : Bool
  didDownstream : Bool
deriving DecidableEq

/-- `hapsim_one_gene` restricted to its control flow on the SNP count:
zero retained SNPs logs the skip and returns 0 before any downstream
work (lines 82-84); otherwise the full simulation runs and `m` is
returned (line 279).  No path raises. -/
def hapsimOneGene (bim : List BimRow) (r : Region) : Except String GeneRun :=
  let m := (geneSnps bim r).length
  if m = 0 then Except.ok ⟨0, true, false⟩ else Except.ok ⟨m, false, true⟩

/-- The per-gene entry of the final `snp_counts.tsv` table
(lines 304-305). -/
def snpCount (bim : List BimRow) (r : Region) : ℕ :=
  match hapsimOneGene bim r with
  | Except.ok g => g.count
  | Except.error _ => 0

/-- The final gene-to-SNP-count table, one entry per requested gene. -/
def snpCounts (bim : List BimRow) (genes : List Region) : List ℕ :=
  genes.map (snpCount bim)

/-- Counterexample for C8: a region on chromosome 99, absent from a
panel that only has chromosome 1, makes `hapsim_one_gene` return 0 with
the skip logged — it does not fail fatally. -/
theorem unknown_chrom_not_fatal :
    hapsimOneGene [⟨1, 100⟩] ⟨99, 1, 1000⟩ = Except.ok ⟨0, true, false⟩ := by
  rfl

/-- C8 (amended): a gene whose region holds zero retained SNPs — the
unknown-chromosome case included — performs no downstream work, raises
no error, logs the skip, returns 0, and contributes a 0 entry at its
position of the final gene-to-SNP-count table. -/
theorem empty_gene_skips (bim : List BimRow) (r : Region)
    (h : geneSnps bim r = []) :
    hapsimOneGene bim r = Except.ok ⟨0, true, false⟩ ∧
    snpCount bim r = 0 ∧
    ∀ (gs : List Region) (k : ℕ), gs[k]? = some r → (snpCounts bim gs)[k]? = some 0 := by
  have hg : hapsimOneGene bim r = Except.ok ⟨0, true, false⟩ := by
    unfold hapsimOneGene
    simp [h]
  have hc : snpCount bim r = 0 := by
    unfold snpCount
    rw [hg]
  refine ⟨hg, hc, ?_⟩
  intro gs k hk
  unfold snpCounts
  rw [List.getElem?_map, hk]
  simp [hc]

/-- Witness for C8 at a concrete empty region. -/
theorem empty_gene_skips_witness :
    snpCount [⟨1, 100⟩] ⟨99, 1, 1000⟩ = 0 ∧
    (snpCounts [⟨1, 100⟩] [⟨99, 1, 1000⟩])[0]? = some 0 :=
  ⟨(empty_gene_skips [⟨1, 100⟩] ⟨99, 1, 1000⟩ rfl).2.1,
   (empty_gene_skips [⟨1, 100⟩] ⟨99, 1, 1000⟩ rfl).2.2 [⟨99, 1, 1000⟩] 0 rfl⟩

/- ------------------------------------------------------------------
   Case/control accumulation (script lines 151-161 and 196-216).

   Initial collection (per parameter combination, over the rescaling
   pool):
     i_case = np.where(y)[0]
     n_collected = len(i_case);  X_case = [X_pop0[i_case]]
     i_ctrl = np.where(~y)[0][:len(i_case)];  X_ctrl = [X_pop0[i_ctrl]]
   Oversampling loop:
     while any(n_collected < tot_n_case):
       X = new batch
       for each combination with n_collected < tot_n_case:
         i_case = np.where(y)[0]; n_collected += len(i_case)
         X_case.append(X[i_case])
         i_ctrl = np.where(~y)[0][:len(i_case)]; X_ctrl.append(X[i_ctrl])
   Partition (lines 212-217):
     concatenate(X_case)[:tot_n_case].reshape(n_rep, n_case, m)

   A batch is modelled as a list of (individual id, case status) pairs;
   rows of the genotype matrix are identified by their ids.
   ------------------------------------------------------------------ -/

/-- Ids of the case rows of a batch (`X[np.where(y)[0]]`). -/
def casesOf (batch : List (ℕ × Bool)) : List ℕ :=
  (batch.filter fun p => p.2).map Prod.fst

/-- Ids of the control rows kept from a batch: the non-case rows,
truncated to the batch's case count (`np.where(~y)[0][:len(i_case)]`). -/
def ctrlsOf (batch : List (ℕ × Bool)) : List ℕ :=
  ((batch.filter fun p => !p.2).map Prod.fst).take (casesOf batch).length

/-- Accumulation state of one parameter combination: the running case
count `n_collected` and the collected case and control rows. -/
structure ComboState where
  nColl : ℕ
  caseRows : List ℕ
  ctrlRows : List ℕ
deriving DecidableEq

/-- One oversampling round for one combination (lines 201-210): a
combination still short of `tot_n_case` appends the batch's cases and
capped controls; one already at target is left untouched. -/
def roundStep (tot : ℕ) (st : ComboState) (batch : List (ℕ × Bool)) : ComboState :=
  if st.nColl < tot then
    ⟨st.nColl + (casesOf batch).length,
     st.caseRows ++ casesOf batch,
     st.ctrlRows ++ ctrlsOf batch⟩
  else st

/-- The unguarded initial collection over the rescaling pool
(lines 151-161). -/
def initCollect (batch : List (ℕ × Bool)) : ComboState :=
  ⟨(casesOf batch).length, casesOf batch, ctrlsOf batch⟩

/-- The whole accumulation of one combination: initial collection, then
the oversampling rounds in order. -/
def accumulate (tot : ℕ) (b0 : List (ℕ × Bool)) (batches : List (List (ℕ × Bool))) :
    ComboState :=
  batches.foldl (roundStep tot) (initCollect b0)

/-- C10: a combination whose collected case count has reached the
target is left untouched by an oversampling round: count, case rows and
control rows are all unchanged. -/
theorem reached_combo_untouched (tot : ℕ) (st : ComboState)
    (batch : List (ℕ × Bool)) (h : tot ≤ st.nColl) :
    roundStep tot st batch = st := by
  unfold roundStep
  rw [if_neg (Nat.not_lt.mpr h)]

/-- Witness for C10: a combination at target 2 ignores a new batch. -/
theorem reached_combo_untouched_witness :
    roundStep 2 ⟨2, [0, 1], [2, 3]⟩ [(9, true), (8, false)] = ⟨2, [0, 1], [2, 3]⟩ :=
  reached_combo_untouched 2 ⟨2, [0, 1], [2, 3]⟩ [(9, true), (8, false)] (by norm_num)

/-- Counterexample for C2: in a batch with two cases and one non-case,
only one control row is appended — the control count is capped by the
available non-cases, not always equal to the batch's case count. -/
theorem ctrl_cap_not_case_count :
    (ctrlsOf [(0, true), (1, true), (2, false)]).length ≠
      (casesOf [(0, true), (1, true), (2, false)]).length := by
  decide

theorem length_ctrlsOf (b : List (ℕ × Bool)) :
    (ctrlsOf b).length =
      min (casesOf b).length ((b.filter fun p => !p.2).length) := by
  simp [ctrlsOf]

/-- Invariant of the accumulation fold: `n_collected` equals the number
of collected case rows, and — when every processed batch has at least
as many non-cases as cases — the control rows keep pace exactly. -/
theorem accumulate_fold_inv (tot : ℕ) (batches : List (List (ℕ × Bool))) :
    ∀ st : ComboState,
      st.nColl = st.caseRows.length →
      st.ctrlRows.length = st.caseRows.length →
      (∀ b ∈ batches, (casesOf b).length ≤ (b.filter fun p => !p.2).length) →
      (batches.foldl (roundStep tot) st).nColl =
          (batches.foldl (roundStep tot) st).caseRows.length ∧
      (batches.foldl (roundStep tot) st).ctrlRows.length =
          (batches.foldl (roundStep tot) st).caseRows.length := by
  induction batches with
  | nil => intro st h1 h2 _; exact ⟨h1, h2⟩
  | cons b bs ih =>
      intro st h1 h2 hb
      simp only [List.foldl_cons]
      have hble : (casesOf b).length ≤ (b.filter fun p => !p.2).length :=
        hb b (List.mem_cons_self b bs)
      have hbs : ∀ b' ∈ bs, (casesOf b').length ≤ (b'.filter fun p => !p.2).length :=
        fun b' hb' => hb b' (List.mem_cons_of_mem b hb')
      refine ih (roundStep tot st b) ?_ ?_ hbs
      · unfold roundStep
        split
        · simp [h1]
        · exact h1
      · unfold roundStep
        split
        · simp only [List.length_append, length_ctrlsOf, h2]
          omega
        · exact h2

/-- The per-replicate partition of line 215/216: replicate `j` receives
rows `[j*n, (j+1)*n)` of the first `tot` collected rows. -/
def chunkList (k n : ℕ) (l : List ℕ) : List (List ℕ) :=
  (List.range k).map fun j => (l.drop (j * n)).take n

theorem chunkList_length (k n : ℕ) (l : List ℕ) : (chunkList k n l).length = k := by
  simp [chunkList]

theorem chunkList_mem_length (k n : ℕ) (l : List ℕ) (hl : k * n ≤ l.length) :
    ∀ c ∈ chunkList k n l, c.length = n := by
  intro c hc
  unfold chunkList at hc
  rcases List.mem_map.mp hc with ⟨j, hj, hcj⟩
  have hjk : j < k := List.mem_range.mp hj
  rw [← hcj]
  have hstep : j * n + n ≤ k * n := by
    have h1 : (j + 1) * n ≤ k * n := Nat.mul_le_mul_right n hjk
    rw [Nat.succ_mul] at h1
    exact h1
  simp [List.length_take, List.length_drop]
  omega

/-- C2 (amended): if every batch (the initial pool included) holds at
least as many non-cases as cases, then on loop exit (`n_collected` at
or above the target) the accumulated controls exactly match the
accumulated cases, both reach the target `tot = n_rep * n_case`, and
the subsequent partition of the first `tot` rows yields exactly
`n_rep` replicate samples of exactly `n_case` rows each for cases and
for controls. -/
theorem accumulator_balanced (tot n_rep n_case : ℕ)
    (b0 : List (ℕ × Bool)) (batches : List (List (ℕ × Bool)))
    (h0 : (casesOf b0).length ≤ (b0.filter fun p => !p.2).length)
    (hb : ∀ b ∈ batches, (casesOf b).length ≤ (b.filter fun p => !p.2).length)
    (hexit : tot ≤ (accumulate tot b0 batches).nColl)
    (htot : tot = n_rep * n_case) :
    (accumulate tot b0 batches).ctrlRows.length =
        (accumulate tot b0 batches).caseRows.length ∧
    tot ≤ (accumulate tot b0 batches).caseRows.length ∧
    tot ≤ (accumulate tot b0 batches).ctrlRows.length ∧
    (chunkList n_rep n_case ((accumulate tot b0 batches).caseRows.take tot)).length = n_rep ∧
    (∀ c ∈ chunkList n_rep n_case ((accumulate tot b0 batches).caseRows.take tot),
        c.length = n_case) ∧
    (chunkList n_rep n_case ((accumulate tot b0 batches).ctrlRows.take tot)).length = n_rep ∧
    (∀ c ∈ chunkList n_rep n_case ((accumulate tot b0 batches).ctrlRows.take tot),
        c.length = n_case) := by
  have hinit1 : (initCollect b0).nColl = (initCollect b0).caseRows.length := rfl
  have hinit2 : (initCollect b0).ctrlRows.length = (initCollect b0).caseRows.length := by
    simp only [initCollect, length_ctrlsOf]
    omega
  have hinv := accumulate_fold_inv tot batches (initCollect b0) hinit1 hinit2 hb
  have hcase : tot ≤ (accumulate tot b0 batches).caseRows.length := by
    rw [← accumulate] at hinv
    omega
  have hctrl : tot ≤ (accumulate tot b0 batches).ctrlRows.length := by
    rw [← accumulate] at hinv
    omega
  have heq : (accumulate tot b0 batches).ctrlRows.length =
      (accumulate tot b0 batches).caseRows.length := by
    rw [← accumulate] at hinv
    exact hinv.2
  have hlen1 : n_rep * n_case ≤ ((accumulate tot b0 batches).caseRows.take tot).length := by
    simp [List.length_take]
    omega
  have hlen2 : n_rep * n_case ≤ ((accumulate tot b0 batches).ctrlRows.take tot).length := by
    simp [List.length_take]
    omega
  exact ⟨heq, hcase, hctrl,
    chunkList_length n_rep n_case _,
    chunkList_mem_length n_rep n_case _ hlen1,
    chunkList_length n_rep n_case _,
    chunkList_mem_length n_rep n_case _ hlen2⟩

/-- Witness for C2: target 2 = 2 replicates x 1 case, initial pool
`[(0,case),(1,ctrl)]`, one oversampling batch `[(2,case),(3,ctrl)]`. -/
theorem accumulator_balanced_witness :
    (accumulate 2 [(0, true), (1, false)] [[(2, true), (3, false)]]).ctrlRows.length =
        (accumulate 2 [(0, true), (1, false)] [[(2, true), (3, false)]]).caseRows.length ∧
    2 ≤ (accumulate 2 [(0, true), (1, false)] [[(2, true), (3, false)]]).caseRows.length ∧
    2 ≤ (accumulate 2 [(0, true), (1, false)] [[(2, true), (3, false)]]).ctrlRows.length ∧
    (chunkList 2 1 ((accumulate 2 [(0, true), (1, false)]
        [[(2, true), (3, false)]]).caseRows.take 2)).length = 2 ∧
    (∀ c ∈ chunkList 2 1 ((accumulate 2 [(0, true), (1, false)]
        [[(2, true), (3, false)]]).caseRows.take 2), c.length = 1) ∧
    (chunkList 2 1 ((accumulate 2 [(0, true), (1, false)]
        [[(2, true), (3, false)]]).ctrlRows.take 2)).length = 2 ∧
    (∀ c ∈ chunkList 2 1 ((accumulate 2 [(0, true), (1, false)]
        [[(2, true), (3, false)]]).ctrlRows.take 2), c.length = 1) :=
  accumulator_balanced 2 2 1 [(0, true), (1, false)] [[(2, true), (3, false)]]
    (by decide) (by decide) (by decide) (by decide)

/- ------------------------------------------------------------------
   Chi-squared / odds-ratio test (script lines 259-268).

   z_abs = chi2_contingency(table)[0] ** 0.5
   o_r   = (table[0,0] / table[1,0]) / (table[0,1] / table[1,1])
   z     = z_abs if o_r > 1 else -z_abs

   `chi2_contingency` is scipy's; for a 2x2 table its default applies
   Yates' continuity correction (`correction=True`, dof = 1): each
   observed count is moved toward its expected count by
   `min(0.5, |expected - observed|) * sign(expected - observed)` and the
   Pearson sum `(obs_adj - exp)^2 / exp` is taken.  The cells are
   rationals; only the final square root leaves `ℚ`.
   ------------------------------------------------------------------ -/

/-- Expected count of one cell: row sum times column sum over the grand
total. -/
def expCell (rowSum colSum total : ℚ) : ℚ := rowSum * colSum / total

/-- `np.sign` on rationals. -/
def sgn (x : ℚ) : ℚ := if 0 < x then 1 else if x < 0 then -1 else 0

/-- Yates-adjusted observed count of one cell (scipy
`chi2_contingency`, `correction=True`, one degree of freedom). -/
def yatesAdj (o e : ℚ) : ℚ := o + min (1/2) |e - o| * sgn (e - o)

/-- One cell's contribution `(obs_adj - exp)^2 / exp` to the Pearson
sum. -/
def cellTerm (o e : ℚ) : ℚ := (yatesAdj o e - e) ^ 2 / e

/-- The statistic `chi2_contingency(table)[0]` for the 2x2 table
`[[a, b], [c, d]]` (continuity-corrected Pearson chi-squared). -/
def chi2CorrectedStat (a b c d : ℚ) : ℚ :=
  cellTerm a (expCell (a + b) (a + c) (a + b + c + d)) +
  cellTerm b (expCell (a + b) (b + d) (a + b + c + d)) +
  cellTerm c (expCell (c + d) (a + c) (a + b + c + d)) +
  cellTerm d (expCell (c + d) (b + d) (a + b + c + d))

/-- The odds ratio as the script computes it (line 264). -/
def oddsR (a b c d : ℚ) : ℚ := a / c / (b / d)

/-- The reported z of the chi-squared test (lines 263-268): the square
root of the statistic, negated when the odds ratio is not above 1. -/
noncomputable def chi2z (a b c d : ℚ) : ℝ :=
  if 1 < oddsR a b c d then Real.sqrt (chi2CorrectedStat a b c d)
  else -Real.sqrt (chi2CorrectedStat a b c d)

/-- C3: the reported z has magnitude `sqrt(chi2_contingency(table)[0])`
and carries the positive branch exactly when the odds ratio exceeds 1,
which (for positive `b`, `c`, `d`, matching the script's float
divisions being finite) happens exactly when `a/c > b/d`; otherwise the
negated magnitude is reported. -/
theorem chi2_z_magnitude_sign (a b c d : ℚ)
    (ha : 0 ≤ a) (hb : 0 < b) (hc : 0 < c) (hd : 0 < d) :
    |chi2z a b c d| = Real.sqrt (chi2CorrectedStat a b c d) ∧
    (1 < oddsR a b c d ↔ b / d < a / c) ∧
    (1 < oddsR a b c d → chi2z a b c d = Real.sqrt (chi2CorrectedStat a b c d)) ∧
    (¬ 1 < oddsR a b c d → chi2z a b c d = -Real.sqrt (chi2CorrectedStat a b c d)) := by
  refine ⟨?_, ?_, ?_, ?_⟩
  · unfold chi2z
    split
    · exact abs_of_nonneg (Real.sqrt_nonneg _)
    · rw [abs_neg]
      exact abs_of_nonneg (Real.sqrt_nonneg _)
  · unfold oddsR
    exact one_lt_div (div_pos hb hd)
  · intro h
    unfold chi2z
    rw [if_pos h]
  · intro h
    unfold chi2z
    rw [if_neg h]

/-- Witness for C3 at the table `[[3, 1], [1, 2]]` (odds ratio 6). -/
theorem chi2_z_magnitude_sign_witness :
    |chi2z 3 1 1 2| = Real.sqrt (chi2CorrectedStat 3 1 1 2) ∧
    (1 < oddsR 3 1 1 2 ↔ (1 : ℚ) / 2 < 3 / 1) ∧
    (1 < oddsR 3 1 1 2 → chi2z 3 1 1 2 = Real.sqrt (chi2CorrectedStat 3 1 1 2)) ∧
    (¬ 1 < oddsR 3 1 1 2 → chi2z 3 1 1 2 = -Real.sqrt (chi2CorrectedStat 3 1 1 2)) :=
  chi2_z_magnitude_sign 3 1 1 2 (by norm_num) (by norm_num) (by norm_num) (by norm_num)

/- ------------------------------------------------------------------
   Effect-size realization (script lines 146-149).

   genetic_eff     = X_pop0_stdz @ beta
   genetic_eff_std = genetic_eff.std()          (numpy, ddof = 0)
   scale_factor    = h2g ** 0.5 / genetic_eff_std
   realized_beta   = beta * scale_factor

   The standardized reference pool `X_pop0_stdz` is a real matrix (rows
   = individuals); the drawn effect vector `beta` is a real vector.
   ------------------------------------------------------------------ -/

/-- Mean of a list of reals (`numpy.mean`). -/
noncomputable def listMean (xs : List ℝ) : ℝ := xs.sum / xs.length

/-- Population variance (`numpy.var`, `ddof = 0`): mean squared
deviation from the mean. -/
noncomputable def listVar (xs : List ℝ) : ℝ :=
  ((xs.map fun x => (x - listMean xs) ^ 2).sum) / xs.length

/-- Dot product of two real vectors. -/
def dotProd (u v : List ℝ) : ℝ := (List.zipWith (fun x y => x * y) u v).sum

/-- Matrix-vector product `X @ v`, one dot product per row of `X`. -/
def matVec (X : List (List ℝ)) (v : List ℝ) : List ℝ := X.map fun row => dotProd row v

/-- The raw genetic score `X_pop0_stdz @ beta` (line 146). -/
def geneticEff (X : List (List ℝ)) (beta : List ℝ) : List ℝ := matVec X beta

/-- `scale_factor = h2g ** 0.5 / genetic_eff.std()` (line 148);
`numpy.std` is the square root of the `ddof = 0` variance. -/
noncomputable def scaleFactor (h2g : ℝ) (X : List (List ℝ)) (beta : List ℝ) : ℝ :=
  Real.sqrt h2g / Real.sqrt (listVar (geneticEff X beta))

/-- `realized_beta = beta * scale_factor` (line 149). -/
noncomputable def realizedBeta (h2g : ℝ) (X : List (List ℝ)) (beta : List ℝ) : List ℝ :=
  beta.map fun bj => bj * scaleFactor h2g X beta

theorem dotProd_map_mul (c : ℝ) :
    ∀ (u v : List ℝ), dotProd u (v.map fun x => x * c) = dotProd u v * c := by
  intro u
  induction u with
  | nil => intro v; simp [dotProd]
  | cons x xs ih =>
      intro v
      cases v with
      | nil => simp [dotProd]
      | cons y ys =>
          simp only [List.map_cons, dotProd, List.zipWith_cons_cons, List.sum_cons] at *
          rw [ih ys]
          ring

theorem listSum_map_mul (c : ℝ) (f : ℝ → ℝ) :
    ∀ xs : List ℝ, ((xs.map fun x => f x * c).sum) = (xs.map f).sum * c := by
  intro xs
  induction xs with
  | nil => simp
  | cons x t ih => simp [ih]; ring

theorem listMean_map_mul (c : ℝ) (xs : List ℝ) :
    listMean (xs.map fun x => x * c) = listMean xs * c := by
  unfold listMean
  have hx : (xs.map fun x => x * c).sum = (xs.map fun x => x).sum * c :=
    listSum_map_mul c (fun y => y) xs
  rw [hx, List.map_id', List.length_map]
  ring

theorem listVar_map_mul (c : ℝ) (xs : List ℝ) :
    listVar (xs.map fun x => x * c) = listVar xs * c ^ 2 := by
  unfold listVar
  rw [listMean_map_mul, List.length_map, List.map_map]
  have hmap : ((fun x => (x - listMean xs * c) ^ 2) ∘ fun x => x * c) =
      fun x => (x - listMean xs) ^ 2 * c ^ 2 := by
    funext x
    simp only [Function.comp]
    ring
  rw [hmap]
  have hx : (xs.map fun x => (x - listMean xs) ^ 2 * c ^ 2).sum =
      (xs.map fun x => (x - listMean xs) ^ 2).sum * c ^ 2 :=
    listSum_map_mul (c ^ 2) (fun x => (x - listMean xs) ^ 2) xs
  rw [hx]
  ring

/-- C4: the realized effect vector is the drawn vector times the scalar
`sqrt(h2g) / std(genetic score)`, and as a consequence the variance of
the rescaled genetic score over the exact reference pool used for the
scaling is the target heritability. -/
theorem realized_score_var_eq_h2g (h2g : ℝ) (X : List (List ℝ)) (beta : List ℝ)
    (hvar : 0 < listVar (geneticEff X beta)) (hh : 0 ≤ h2g) :
    listVar (geneticEff X (realizedBeta h2g X beta)) = h2g := by
  have hlin : geneticEff X (realizedBeta h2g X beta) =
      (geneticEff X beta).map fun x => x * scaleFactor h2g X beta := by
    unfold geneticEff realizedBeta matVec
    rw [List.map_map]
    apply List.map_congr_left
    intro row _
    simp only [Function.comp]
    exact dotProd_map_mul (scaleFactor h2g X beta) row beta
  rw [hlin, listVar_map_mul]
  unfold scaleFactor
  rw [div_pow, Real.sq_sqrt hh, Real.sq_sqrt (le_of_lt hvar)]
  field_simp

/-- Witness for C4: pool rows `[1]` and `[-1]`, effect vector `[1]`,
target heritability 1/2. -/
theorem realized_score_var_eq_h2g_witness :
    0 < listVar (geneticEff [[(1 : ℝ)], [-1]] [1]) ∧
    listVar (geneticEff [[(1 : ℝ)], [-1]] (realizedBeta (1 / 2) [[(1 : ℝ)], [-1]] [1])) =
      1 / 2 := by
  have hv : 0 < listVar (geneticEff [[(1 : ℝ)], [-1]] [1]) := by
    norm_num [listVar, listMean, geneticEff, matVec, dotProd]
  exact ⟨hv, realized_score_var_eq_h2g (1 / 2) [[(1 : ℝ)], [-1]] [1] hv (by norm_num)⟩

/- ------------------------------------------------------------------
   Disjointness of GWAS partitions and the LD-reference pool
   (script lines 151-161, 164-182, 196-217).

   The initial collection runs over the rescaling pool, whose rows have
   ids 0 .. n_pop-1 and case status `y i` for each parameter
   combination `y`; the selected indices of every combination are
   gathered (`X_idx_used`), deleted from the pool, and the remainder
   (truncated to `n_ld_total`) is cut into the requested LD panels in
   the order the sizes were given.  Oversampling batches draw fresh
   individuals, modelled by the freshness hypotheses (ids at least
   `n_pop`, no id drawn twice).
   ------------------------------------------------------------------ -/

/-- The row ids of a batch. -/
def batchIds (b : List (ℕ × Bool)) : List ℕ := b.map Prod.fst

/-- The rescaling pool as the initial batch of one combination: row `i`
with its liability-threshold case status `y i` (lines 152-154). -/
def initBatch (n_pop : ℕ) (y : ℕ → Bool) : List (ℕ × Bool) :=
  (List.range n_pop).map fun i => (i, y i)

/-- `X_idx_used`: all initial-pool indices selected as a case or as a
kept control by any parameter combination (lines 157, 161, 166). -/
def usedIdx (n_pop : ℕ) (ys : List (ℕ → Bool)) : List ℕ :=
  ys.foldr
    (fun y acc => casesOf (initBatch n_pop y) ++ ctrlsOf (initBatch n_pop y) ++ acc) []

/-- The LD pool (line 167): the initial-pool rows that were never
selected, in order, truncated to `n_ld_total`
(`np.delete(X_pop0, X_idx_used)[:n_ld_total]`). -/
def ldPool (n_pop : ℕ) (ys : List (ℕ → Bool)) (n_ld_total : ℕ) : List ℕ :=
  ((List.range n_pop).filter fun i => decide (i ∉ usedIdx n_pop ys)).take n_ld_total

/-- The per-panel slicing of the LD pool (lines 176-181): panel `p`
takes the next `n_rep * n_ld[p]` rows, in the order the LD sizes were
specified. -/
def ldPanelSlices (n_rep : ℕ) : List ℕ → List ℕ → List (List ℕ)
  | _, [] => []
  | pool, n :: rest =>
      pool.take (n_rep * n) :: ldPanelSlices n_rep (pool.drop (n_rep * n)) rest

theorem casesOf_sublist (b : List (ℕ × Bool)) : (casesOf b).Sublist (batchIds b) :=
  List.Sublist.map Prod.fst (List.filter_sublist b)

theorem ctrlsOf_sublist (b : List (ℕ × Bool)) : (ctrlsOf b).Sublist (batchIds b) :=
  (List.take_sublist _ _).trans (List.Sublist.map Prod.fst (List.filter_sublist b))

theorem pair_of_mem_casesOf {b : List (ℕ × Bool)} {x : ℕ} (h : x ∈ casesOf b) :
    (x, true) ∈ b := by
  unfold casesOf at h
  rcases List.mem_map.mp h with ⟨p, hp, hfst⟩
  obtain ⟨u, s⟩ := p
  have hf := List.mem_filter.mp hp
  simp only at hfst
  simp only [List.mem_filter] at hf
  have hs : s = true := by simpa using hf.2
  rw [← hfst, ← hs]
  exact hf.1

theorem pair_of_mem_ctrlsOf {b : List (ℕ × Bool)} {x : ℕ} (h : x ∈ ctrlsOf b) :
    (x, false) ∈ b := by
  unfold ctrlsOf at h
  have h' := List.mem_of_mem_take h
  rcases List.mem_map.mp h' with ⟨p, hp, hfst⟩
  obtain ⟨u, s⟩ := p
  have hf := List.mem_filter.mp hp
  have hs : s = false := by simpa using hf.2
  rw [← hfst, ← hs]
  exact hf.1

theorem mem_batchIds_of_casesOf {b : List (ℕ × Bool)} {x : ℕ} (h : x ∈ casesOf b) :
    x ∈ batchIds b :=
  (casesOf_sublist b).subset h

theorem mem_batchIds_of_ctrlsOf {b : List (ℕ × Bool)} {x : ℕ} (h : x ∈ ctrlsOf b) :
    x ∈ batchIds b :=
  (ctrlsOf_sublist b).subset h

/-- A batch with duplicate-free ids never keeps the same individual as
both a case and a control. -/
theorem casesOf_disjoint_ctrlsOf (b : List (ℕ × Bool)) (hb : (batchIds b).Nodup) :
    (casesOf b).Disjoint (ctrlsOf b) := by
  intro x hx1 hx2
  have h1 := pair_of_mem_casesOf hx1
  have h2 := pair_of_mem_ctrlsOf hx2
  have heq := List.inj_on_of_nodup_map hb h1 h2 rfl
  simp at heq

theorem batchIds_initBatch (n_pop : ℕ) (y : ℕ → Bool) :
    batchIds (initBatch n_pop y) = List.range n_pop := by
  unfold batchIds initBatch
  rw [List.map_map]
  have hcomp : (Prod.fst ∘ fun i => (i, y i)) = fun i : ℕ => i := by
    funext i
    rfl
  rw [hcomp, List.map_id']

theorem subset_usedIdx (n_pop : ℕ) :
    ∀ (ys : List (ℕ → Bool)) (y : ℕ → Bool), y ∈ ys →
      (∀ x ∈ casesOf (initBatch n_pop y), x ∈ usedIdx n_pop ys) ∧
      (∀ x ∈ ctrlsOf (initBatch n_pop y), x ∈ usedIdx n_pop ys) := by
  intro ys
  induction ys with
  | nil => intro y hy; simp at hy
  | cons y0 t ih =>
      intro y hy
      have hdef : usedIdx n_pop (y0 :: t) =
          casesOf (initBatch n_pop y0) ++ ctrlsOf (initBatch n_pop y0) ++ usedIdx n_pop t :=
        rfl
      rcases List.mem_cons.mp hy with heq | htail
      · subst heq
        constructor
        · intro x hx
          rw [hdef]
          exact List.mem_append_left _ (List.mem_append_left _ hx)
        · intro x hx
          rw [hdef]
          exact List.mem_append_left _ (List.mem_append_right _ hx)
      · constructor
        · intro x hx
          rw [hdef]
          exact List.mem_append_right _ ((ih y htail).1 x hx)
        · intro x hx
          rw [hdef]
          exact List.mem_append_right _ ((ih y htail).2 x hx)

theorem mem_ldPool {n_pop n_ld_total : ℕ} {ys : List (ℕ → Bool)} {i : ℕ}
    (h : i ∈ ldPool n_pop ys n_ld_total) :
    i < n_pop ∧ i ∉ usedIdx n_pop ys := by
  unfold ldPool at h
  have h' := List.mem_of_mem_take h
  have hf := List.mem_filter.mp h'
  exact ⟨List.mem_range.mp hf.1, of_decide_eq_true hf.2⟩

theorem ldPanelSlices_flatten (n_rep : ℕ) :
    ∀ (ns pool : List ℕ),
      (ldPanelSlices n_rep pool ns).flatten = pool.take (n_rep * ns.sum) := by
  intro ns
  induction ns with
  | nil => intro pool; simp [ldPanelSlices]
  | cons n rest ih =>
      intro pool
      show (pool.take (n_rep * n) ::
        ldPanelSlices n_rep (pool.drop (n_rep * n)) rest).flatten = _
      rw [List.flatten_cons, ih, ← List.take_add, List.sum_cons, Nat.mul_add]

theorem ldPanelSlices_lengths (n_rep : ℕ) :
    ∀ (ns pool : List ℕ), n_rep * ns.sum ≤ pool.length →
      (ldPanelSlices n_rep pool ns).map List.length = ns.map fun n => n_rep * n := by
  intro ns
  induction ns with
  | nil => intro pool _; simp [ldPanelSlices]
  | cons n rest ih =>
      intro pool hp
      have hx : n_rep * (n :: rest).sum = n_rep * n + n_rep * rest.sum := by
        rw [List.sum_cons, Nat.mul_add]
      rw [hx] at hp
      show ((pool.take (n_rep * n)).length ::
          (ldPanelSlices n_rep (pool.drop (n_rep * n)) rest).map List.length) = _
      rw [ih (pool.drop (n_rep * n)) (by simp [List.length_drop]; omega)]
      simp [List.length_take]
      omega

/-- Every collected row is either from the start state or from one of
the processed batches. -/
theorem accumulate_rows_sub (tot : ℕ) :
    ∀ (batches : List (List (ℕ × Bool))) (st : ComboState),
      (∀ x ∈ (batches.foldl (roundStep tot) st).caseRows,
          x ∈ st.caseRows ∨ x ∈ (batches.map batchIds).flatten) ∧
      (∀ x ∈ (batches.foldl (roundStep tot) st).ctrlRows,
          x ∈ st.ctrlRows ∨ x ∈ (batches.map batchIds).flatten) := by
  intro batches
  induction batches with
  | nil => intro st; simp
  | cons b bs ih =>
      intro st
      simp only [List.foldl_cons, List.map_cons, List.flatten_cons]
      have hstep : ∀ x : ℕ,
          (x ∈ (roundStep tot st b).caseRows → x ∈ st.caseRows ∨ x ∈ batchIds b) ∧
          (x ∈ (roundStep tot st b).ctrlRows → x ∈ st.ctrlRows ∨ x ∈ batchIds b) := by
        intro x
        unfold roundStep
        split
        · constructor
          · intro hx
            rcases List.mem_append.mp hx with hx | hx
            · exact Or.inl hx
            · exact Or.inr (mem_batchIds_of_casesOf hx)
          · intro hx
            rcases List.mem_append.mp hx with hx | hx
            · exact Or.inl hx
            · exact Or.inr (mem_batchIds_of_ctrlsOf hx)
        · exact ⟨Or.inl, Or.inl⟩
      constructor
      · intro x hx
        rcases (ih (roundStep tot st b)).1 x hx with hx1 | hx1
        · rcases (hstep x).1 hx1 with h | h
          · exact Or.inl h
          · exact Or.inr (List.mem_append_left _ h)
        · exact Or.inr (List.mem_append_right _ hx1)
      · intro x hx
        rcases (ih (roundStep tot st b)).2 x hx with hx1 | hx1
        · rcases (hstep x).2 hx1 with h | h
          · exact Or.inl h
          · exact Or.inr (List.mem_append_left _ h)
        · exact Or.inr (List.mem_append_right _ hx1)

/-- When the start rows are duplicate-free and disjoint and each drawn
individual is fresh (no id appears in two batches or twice in one), the
accumulated case rows and control rows stay duplicate-free and
disjoint. -/
theorem accumulate_rows_nodup (tot : ℕ) :
    ∀ (batches : List (List (ℕ × Bool))) (st : ComboState),
      st.caseRows.Nodup → st.ctrlRows.Nodup →
      st.caseRows.Disjoint st.ctrlRows →
      ((batches.map batchIds).flatten).Nodup →
      (∀ x ∈ st.caseRows, x ∉ (batches.map batchIds).flatten) →
      (∀ x ∈ st.ctrlRows, x ∉ (batches.map batchIds).flatten) →
      (batches.foldl (roundStep tot) st).caseRows.Nodup ∧
      (batches.foldl (roundStep tot) st).ctrlRows.Nodup ∧
      (batches.foldl (roundStep tot) st).caseRows.Disjoint
        (batches.foldl (roundStep tot) st).ctrlRows := by
  intro batches
  induction batches with
  | nil => intro st h1 h2 h3 _ _ _; exact ⟨h1, h2, h3⟩
  | cons b bs ih =>
      intro st h1 h2 h3 hJ hnc hnt
      simp only [List.map_cons, List.flatten_cons] at hJ hnc hnt
      have hb1 : (batchIds b).Nodup := (List.nodup_append.mp hJ).1
      have hb2 : ((bs.map batchIds).flatten).Nodup := (List.nodup_append.mp hJ).2.1
      have hbd : (batchIds b).Disjoint ((bs.map batchIds).flatten) :=
        (List.nodup_append.mp hJ).2.2
      simp only [List.foldl_cons]
      have hcases_b : (casesOf b).Nodup := List.Nodup.sublist (casesOf_sublist b) hb1
      have hctrls_b : (ctrlsOf b).Nodup := List.Nodup.sublist (ctrlsOf_sublist b) hb1
      have hstep1 : (roundStep tot st b).caseRows.Nodup := by
        unfold roundStep
        split
        · exact List.Nodup.append h1 hcases_b
            (fun x hx hx2 =>
              hnc x hx (List.mem_append_left _ (mem_batchIds_of_casesOf hx2)))
        · exact h1
      have hstep2 : (roundStep tot st b).ctrlRows.Nodup := by
        unfold roundStep
        split
        · exact List.Nodup.append h2 hctrls_b
            (fun x hx hx2 =>
              hnt x hx (List.mem_append_left _ (mem_batchIds_of_ctrlsOf hx2)))
        · exact h2
      have hstep3 : (roundStep tot st b).caseRows.Disjoint (roundStep tot st b).ctrlRows := by
        unfold roundStep
        split
        · intro x hx1 hx2
          rcases List.mem_append.mp hx1 with hx1 | hx1 <;>
            rcases List.mem_append.mp hx2 with hx2 | hx2
          · exact h3 hx1 hx2
          · exact hnc x hx1 (List.mem_append_left _ (mem_batchIds_of_ctrlsOf hx2))
          · exact hnt x hx2 (List.mem_append_left _ (mem_batchIds_of_casesOf hx1))
          · exact casesOf_disjoint_ctrlsOf b hb1 hx1 hx2
        · exact h3
      have hstep4 : ∀ x ∈ (roundStep tot st b).caseRows, x ∉ (bs.map batchIds).flatten := by
        unfold roundStep
        split
        · intro x hx
          rcases List.mem_append.mp hx with hx | hx
          · exact fun hmem => hnc x hx (List.mem_append_right _ hmem)
          · exact fun hmem => hbd (mem_batchIds_of_casesOf hx) hmem
        · exact fun x hx hmem => hnc x hx (List.mem_append_right _ hmem)
      have hstep5 : ∀ x ∈ (roundStep tot st b).ctrlRows, x ∉ (bs.map batchIds).flatten := by
        unfold roundStep
        split
        · intro x hx
          rcases List.mem_append.mp hx with hx | hx
          · exact fun hmem => hnt x hx (List.mem_append_right _ hmem)
          · exact fun hmem => hbd (mem_batchIds_of_ctrlsOf hx) hmem
        · exact fun x hx hmem => hnt x hx (List.mem_append_right _ hmem)
      exact ih (roundStep tot st b) hstep1 hstep2 hstep3 hb2 hstep4 hstep5

/-- Distinct `n`-wide slices of a duplicate-free list are disjoint. -/
theorem chunks_disjoint (n : ℕ) (l : List ℕ) (hl : l.Nodup) (i j : ℕ) (hij : i < j) :
    ((l.drop (i * n)).take n).Disjoint ((l.drop (j * n)).take n) := by
  intro x hx1 hx2
  rw [List.take_drop] at hx1
  have hx1' : x ∈ l.take (i * n + n) := (List.drop_sublist _ _).subset hx1
  have hx2' : x ∈ l.drop (j * n) := (List.take_sublist _ _).subset hx2
  have hle : i * n + n ≤ j * n := by
    have h1 : (i + 1) * n ≤ j * n := Nat.mul_le_mul_right n hij
    rw [Nat.succ_mul] at h1
    exact h1
  exact List.disjoint_take_drop hl hle hx1' hx2'

/-- C5: for any parameter combination `y` among `ys`, (1) every LD-pool
row is an initial-pool row never selected as a case or control by any
combination, (2) no LD-pool row appears among the accumulated case or
control rows of `y`, (3)/(4) the per-replicate case slices and control
slices of the collected pool are pairwise disjoint, (5) collected case
and control rows never share an individual, and (6)/(7) the LD pool is
split into the requested panel sizes in the order the LD sizes were
specified.  The freshness hypotheses state that oversampled individuals
are new draws: ids at least `n_pop` and no id drawn twice. -/
theorem ld_pool_replicate_disjoint
    (n_pop tot n_rep n_case n_ld_total : ℕ) (ns : List ℕ)
    (ys : List (ℕ → Bool)) (y : ℕ → Bool) (hy : y ∈ ys)
    (batches : List (List (ℕ × Bool)))
    (hfresh : ∀ b ∈ batches, ∀ p ∈ b, n_pop ≤ p.1)
    (hnodup : ((batches.map batchIds).flatten).Nodup) :
    (∀ i ∈ ldPool n_pop ys n_ld_total, i < n_pop ∧
      ∀ y' ∈ ys, i ∉ casesOf (initBatch n_pop y') ∧ i ∉ ctrlsOf (initBatch n_pop y')) ∧
    (∀ i ∈ ldPool n_pop ys n_ld_total,
      i ∉ (accumulate tot (initBatch n_pop y) batches).caseRows ∧
      i ∉ (accumulate tot (initBatch n_pop y) batches).ctrlRows) ∧
    (chunkList n_rep n_case
        ((accumulate tot (initBatch n_pop y) batches).caseRows.take tot)).Pairwise
      List.Disjoint ∧
    (chunkList n_rep n_case
        ((accumulate tot (initBatch n_pop y) batches).ctrlRows.take tot)).Pairwise
      List.Disjoint ∧
    (accumulate tot (initBatch n_pop y) batches).caseRows.Disjoint
      (accumulate tot (initBatch n_pop y) batches).ctrlRows ∧
    (ldPanelSlices n_rep (ldPool n_pop ys n_ld_total) ns).flatten =
      (ldPool n_pop ys n_ld_total).take (n_rep * ns.sum) ∧
    (n_rep * ns.sum ≤ (ldPool n_pop ys n_ld_total).length →
      (ldPanelSlices n_rep (ldPool n_pop ys n_ld_total) ns).map List.length =
        ns.map fun n => n_rep * n) := by
  have hids : batchIds (initBatch n_pop y) = List.range n_pop := batchIds_initBatch n_pop y
  have hidnodup : (batchIds (initBatch n_pop y)).Nodup := by
    rw [hids]
    exact List.nodup_range n_pop
  have hcn : (casesOf (initBatch n_pop y)).Nodup :=
    List.Nodup.sublist (casesOf_sublist _) hidnodup
  have htn : (ctrlsOf (initBatch n_pop y)).Nodup :=
    List.Nodup.sublist (ctrlsOf_sublist _) hidnodup
  have hdisj0 : (casesOf (initBatch n_pop y)).Disjoint (ctrlsOf (initBatch n_pop y)) :=
    casesOf_disjoint_ctrlsOf _ hidnodup
  have hlt0 : ∀ x ∈ batchIds (initBatch n_pop y), x < n_pop := by
    rw [hids]
    intro x hx
    exact List.mem_range.mp hx
  have hgeF : ∀ x ∈ (batches.map batchIds).flatten, n_pop ≤ x := by
    intro x hx
    rcases List.mem_flatten.mp hx with ⟨l, hl2, hxl⟩
    rcases List.mem_map.mp hl2 with ⟨b, hbmem, hbeq⟩
    subst hbeq
    unfold batchIds at hxl
    rcases List.mem_map.mp hxl with ⟨p, hpmem, hpeq⟩
    rw [← hpeq]
    exact hfresh b hbmem p hpmem
  have hnc0 : ∀ x ∈ casesOf (initBatch n_pop y), x ∉ (batches.map batchIds).flatten := by
    intro x hx hmem
    have hge := hgeF x hmem
    have hltx := hlt0 x (mem_batchIds_of_casesOf hx)
    omega
  have hnt0 : ∀ x ∈ ctrlsOf (initBatch n_pop y), x ∉ (batches.map batchIds).flatten := by
    intro x hx hmem
    have hge := hgeF x hmem
    have hltx := hlt0 x (mem_batchIds_of_ctrlsOf hx)
    omega
  have hmaster := accumulate_rows_nodup tot batches (initCollect (initBatch n_pop y))
    hcn htn hdisj0 hnodup hnc0 hnt0
  have hsub := accumulate_rows_sub tot batches (initCollect (initBatch n_pop y))
  have hacc : accumulate tot (initBatch n_pop y) batches =
      batches.foldl (roundStep tot) (initCollect (initBatch n_pop y)) := rfl
  refine ⟨?_, ?_, ?_, ?_, ?_, ldPanelSlices_flatten n_rep ns _,
    fun h => ldPanelSlices_lengths n_rep ns _ h⟩
  · intro i hi
    obtain ⟨hilt, hnotused⟩ := mem_ldPool hi
    exact ⟨hilt, fun y' hy' =>
      ⟨fun hmem => hnotused ((subset_usedIdx n_pop ys y' hy').1 i hmem),
       fun hmem => hnotused ((subset_usedIdx n_pop ys y' hy').2 i hmem)⟩⟩
  · intro i hi
    obtain ⟨hilt, hnotused⟩ := mem_ldPool hi
    constructor
    · intro hmem
      rw [hacc] at hmem
      rcases hsub.1 i hmem with hin | hin
      · exact hnotused ((subset_usedIdx n_pop ys y hy).1 i hin)
      · exact absurd hilt (Nat.not_lt.mpr (hgeF i hin))
    · intro hmem
      rw [hacc] at hmem
      rcases hsub.2 i hmem with hin | hin
      · exact hnotused ((subset_usedIdx n_pop ys y hy).2 i hin)
      · exact absurd hilt (Nat.not_lt.mpr (hgeF i hin))
  · have hnd : (accumulate tot (initBatch n_pop y) batches).caseRows.Nodup := by
      rw [hacc]
      exact hmaster.1
    have hndt : ((accumulate tot (initBatch n_pop y) batches).caseRows.take tot).Nodup :=
      List.Nodup.sublist (List.take_sublist _ _) hnd
    unfold chunkList
    rw [List.pairwise_map]
    exact List.Pairwise.imp (fun hab => chunks_disjoint n_case _ hndt _ _ hab)
      (List.pairwise_lt_range n_rep)
  · have hnd : (accumulate tot (initBatch n_pop y) batches).ctrlRows.Nodup := by
      rw [hacc]
      exact hmaster.2.1
    have hndt : ((accumulate tot (initBatch n_pop y) batches).ctrlRows.take tot).Nodup :=
      List.Nodup.sublist (List.take_sublist _ _) hnd
    unfold chunkList
    rw [List.pairwise_map]
    exact List.Pairwise.imp (fun hab => chunks_disjoint n_case _ hndt _ _ hab)
      (List.pairwise_lt_range n_rep)
  · rw [hacc]
    exact hmaster.2.2

/-- Witness for C5: pool of 3 rows, one combination with row 0 as its
only case (row 1 its kept control), one fresh oversampling batch with
ids 5 and 6; LD-pool row 2 is in neither the case nor the control
rows. -/
theorem ld_pool_replicate_disjoint_witness :
    2 ∉ (accumulate 1 (initBatch 3 fun i => decide (i = 0))
        [[(5, true), (6, false)]]).caseRows ∧
    2 ∉ (accumulate 1 (initBatch 3 fun i => decide (i = 0))
        [[(5, true), (6, false)]]).ctrlRows :=
  (ld_pool_replicate_disjoint 3 1 1 1 1 [1] [fun i => decide (i = 0)]
      (fun i => decide (i = 0)) (List.mem_singleton.mpr rfl)
      [[(5, true), (6, false)]] (by decide) (by decide)).2.1
    2 (by decide)

end Miao2023sim
